import Mathlib

/-!
Verification development for the line-oriented diff renderer and branch-name
sanitizer of the `github_push` backend.

The central function is `create_diff_html` (srcapis/DB_diff_apis/__init__.py,
lines 17-112).  It obtains a token-level edit script from the external
`diff_match_patch` collaborator and walks it, splitting each operation's text
payload on the newline character and emitting one rendered line per fragment,
threading two 1-based line counters.  The source builds HTML `div` blocks; we
embed each emitted block as a structured `Record` carrying exactly the data
the source writes into the block: the left line-number cell (an empty cell is
`none`), the right line-number cell, the classification implied by the CSS
class, and the escaped content.  Strings are modelled as `List Char`.

The edit script itself is produced by `diff_match_patch.diff_main` followed by
`diff_cleanupSemantic`, an external library which the specification (section 6)
treats as an assumed-correct collaborator.  The renderer part is therefore
embedded as a function of the script, and script-producing behaviour needed by
concrete test-vector claims is modelled from the specification.
-/

/-- Coerce a string literal to the `List Char` representation used throughout. -/
def chars (s : String) : List Char := s.data

/-- Classification of a rendered line, from the CSS class the source attaches
(`diff-equal`, `diff-deletion`, `diff-addition`). -/
inductive Classification
  | equal
  | deletion
  | insertion
  deriving DecidableEq

/-- One rendered line: the structured content of one `<div class="diff-line">`
block emitted by `create_diff_html`.  An empty line-number cell is `none`. -/
structure Record where
  leftNumber : Option Nat
  rightNumber : Option Nat
  classification : Classification
  content : List Char
  deriving DecidableEq

/-- Python's `text.split('\n')` (lines 33): `[] ↦ [[]]`, separators delimit
fragments, a trailing separator yields a final empty fragment. -/
def splitNl : List Char → List (List Char)
  | [] => [[]]
  | c :: rest =>
      if c = '\n' then [] :: splitNl rest
      else
        match splitNl rest with
        | [] => [[c]]
        | g :: gs => (c :: g) :: gs

/-- Python's `text.endswith('\n')` (lines 43, 55, 66). -/
def endsWithNl (s : List Char) : Bool :=
  match s.getLast? with
  | some c => c = '\n'
  | none => false

/-- Python's `str.replace(old, new)` specialized to a one-character pattern,
which replaces every occurrence of the character. -/
def replaceChar (old : Char) (new : List Char) : List Char → List Char
  | [] => []
  | c :: rest => (if c = old then new else [c]) ++ replaceChar old new rest

/-- `escape_html` (source lines 140-141):
`text.replace('&', '&amp;').replace('<', '&lt;').replace('>', '&gt;')`,
three sequential single-character replacements in that order. -/
def escape_html (text : List Char) : List Char :=
  replaceChar '>' (chars "&gt;")
    (replaceChar '<' (chars "&lt;")
      (replaceChar '&' (chars "&amp;") text))

/-- The record emitted for one line fragment (source lines 36-64): the three
branches on `op` write the same `div` block shapes the source writes.
`op = 0` is Equal (both number cells filled), `op = -1` is Deletion (right
cell empty), anything else is Addition (left cell empty).  The content is
stored HTML-escaped, exactly as the source interpolates `escape_html(line)`. -/
def emitRecord (op : Int) (l r : Nat) (line : List Char) : Record :=
  if op = 0 then ⟨some l, some r, Classification.equal, escape_html line⟩
  else if op = -1 then ⟨some l, none, Classification.deletion, escape_html line⟩
  else ⟨none, some r, Classification.insertion, escape_html line⟩

/-- The inner loop of `create_diff_html` (source lines 35-67): iterate over the
fragments of one operation's payload, emitting a record for every fragment and
bumping the operation's relevant counter(s) when
`i < len(lines) - 1 or text.endswith('\n')`.  The fragment at index `i` is not
the last one exactly when the remaining list is nonempty, so the source's
condition is `!rest.isEmpty || endsNl`.  Returns the emitted records and the
final counter pair. -/
def emitLines (op : Int) (endsNl : Bool) :
    List (List Char) → Nat → Nat → List Record × Nat × Nat
  | [], l, r => ([], l, r)
  | line :: rest, l, r =>
      let inc : Bool := !rest.isEmpty || endsNl
      let next : Nat × Nat :=
        if op = 0 then (if inc then (l + 1, r + 1) else (l, r))
        else if op = -1 then (if inc then (l + 1, r) else (l, r))
        else (if inc then (l, r + 1) else (l, r))
      let res := emitLines op endsNl rest next.1 next.2
      (emitRecord op l r line :: res.1, res.2)

/-- The outer loop of `create_diff_html` (source lines 32-67): walk the edit
script in order, threading the two line counters across operations.  The
counters start at 1 (source lines 28-29). -/
def processDiffs : List (Int × List Char) → Nat → Nat → List Record
  | [], _, _ => []
  | (op, text) :: rest, l, r =>
      let res := emitLines op (endsWithNl text) (splitNl text) l r
      res.1 ++ processDiffs rest res.2.1 res.2.2

/-- Modelled from the spec: the external collaborator
`compute_edit_script` (spec section 6, `diff_match_patch.diff_main` followed by
`diff_cleanupSemantic`) applied to two identical texts.  A correct diff of a
text against itself is a single Equal span holding the whole text (and the
cleanup pass leaves a single-span script unchanged); two empty texts give the
empty script. -/
def diff_main_self (t : List Char) : List (Int × List Char) :=
  if t = [] then [] else [(0, t)]

/-- Modelled from the spec: the external collaborator `compute_edit_script`
(spec section 6) applied to `(t, "")`.  A correct diff against the empty right
text is a single Delete span holding the whole left text. -/
def diff_main_toEmpty (t : List Char) : List (Int × List Char) :=
  if t = [] then [] else [(-1, t)]

/-- Map each character to a string and concatenate the results. -/
def joinMap (f : Char → List Char) (s : List Char) : List Char :=
  (s.map f).flatten

/-- The character-wise substitution that the spec's step 5 describes for
`escape_html`: `&` to `&amp;`, `<` to `&lt;`, `>` to `&gt;`, all other
characters unchanged. -/
def escapeSpec (c : Char) : List Char :=
  if c = '&' then chars "&amp;"
  else if c = '<' then chars "&lt;"
  else if c = '>' then chars "&gt;"
  else [c]

theorem joinMap_nil (f : Char → List Char) : joinMap f [] = [] := rfl

theorem joinMap_cons (f : Char → List Char) (c : Char) (s : List Char) :
    joinMap f (c :: s) = f c ++ joinMap f s := rfl

theorem joinMap_append (f : Char → List Char) (s t : List Char) :
    joinMap f (s ++ t) = joinMap f s ++ joinMap f t := by
  induction s with
  | nil => rfl
  | cons c s ih => simp [joinMap_cons, ih, List.append_assoc]

theorem joinMap_join (f : Char → List Char) (gs : List (List Char)) :
    joinMap f gs.flatten = (gs.map (joinMap f)).flatten := by
  induction gs with
  | nil => rfl
  | cons g gs ih => simp [joinMap_append, ih]

theorem joinMap_id (s : List Char) : joinMap (fun c => [c]) s = s := by
  induction s with
  | nil => rfl
  | cons c s ih => simp [joinMap_cons, ih]

theorem replaceChar_eq_joinMap (old : Char) (new : List Char) (s : List Char) :
    replaceChar old new s = joinMap (fun c => if c = old then new else [c]) s := by
  induction s with
  | nil => rfl
  | cons c s ih => simp [replaceChar, joinMap_cons, ih]

theorem joinMap_joinMap (f g : Char → List Char) (s : List Char) :
    joinMap g (joinMap f s) = joinMap (fun c => joinMap g (f c)) s := by
  induction s with
  | nil => rfl
  | cons c s ih => simp [joinMap_cons, joinMap_append, ih]

/-- The three sequential replacements of `escape_html` amount to the single
character-wise substitution `escapeSpec`: the replacement strings introduced by
an earlier pass contain no character rewritten by a later pass. -/
theorem escape_html_eq_joinMap (s : List Char) :
    escape_html s = joinMap escapeSpec s := by
  unfold escape_html
  rw [replaceChar_eq_joinMap, replaceChar_eq_joinMap, replaceChar_eq_joinMap,
    joinMap_joinMap, joinMap_joinMap]
  apply congrArg (fun f => joinMap f s)
  funext c
  by_cases h1 : c = '&'
  · subst h1; decide
  · by_cases h2 : c = '<'
    · subst h2; decide
    · by_cases h3 : c = '>'
      · subst h3; decide
      · simp [escapeSpec, joinMap_cons, joinMap_nil, h1, h2, h3]

theorem escape_html_nil : escape_html [] = [] := rfl

theorem escape_html_cons (c : Char) (s : List Char) :
    escape_html (c :: s) = escapeSpec c ++ escape_html s := by
  rw [escape_html_eq_joinMap, escape_html_eq_joinMap, joinMap_cons]

theorem escape_html_append (s t : List Char) :
    escape_html (s ++ t) = escape_html s ++ escape_html t := by
  rw [escape_html_eq_joinMap, escape_html_eq_joinMap, escape_html_eq_joinMap,
    joinMap_append]

/-- Inverse of `splitNl`: join fragments with a line-break character between
consecutive fragments. -/
def joinNl : List (List Char) → List Char
  | [] => []
  | [g] => g
  | g :: g2 :: gs => g ++ '\n' :: joinNl (g2 :: gs)

theorem splitNl_ne_nil (s : List Char) : splitNl s ≠ [] := by
  cases s with
  | nil => simp [splitNl]
  | cons c rest =>
      simp only [splitNl]
      by_cases h : c = '\n'
      · simp [h]
      · simp only [h, if_false]
        cases splitNl rest <;> simp

theorem joinNl_splitNl (s : List Char) : joinNl (splitNl s) = s := by
  induction s with
  | nil => rfl
  | cons c rest ih =>
      simp only [splitNl]
      by_cases h : c = '\n'
      · subst h
        simp only [if_pos rfl]
        obtain ⟨g, gs, hg⟩ : ∃ g gs, splitNl rest = g :: gs := by
          cases hsp : splitNl rest with
          | nil => exact absurd hsp (splitNl_ne_nil rest)
          | cons g gs => exact ⟨g, gs, rfl⟩
        rw [hg] at ih ⊢
        simpa [joinNl] using ih
      · simp only [h, if_false]
        obtain ⟨g, gs, hg⟩ : ∃ g gs, splitNl rest = g :: gs := by
          cases hsp : splitNl rest with
          | nil => exact absurd hsp (splitNl_ne_nil rest)
          | cons g gs => exact ⟨g, gs, rfl⟩
        rw [hg] at ih ⊢
        cases gs with
        | nil => simpa [joinNl] using ih
        | cons g2 gs2 => simpa [joinNl] using ih

/-- Escaping commutes with joining fragments on line breaks, because the
line-break character is left unchanged by `escape_html`. -/
theorem joinNl_map_escape (gs : List (List Char)) :
    joinNl (gs.map escape_html) = escape_html (joinNl gs) := by
  match gs with
  | [] => rfl
  | [g] => simp [joinNl]
  | g :: g2 :: gs =>
      have ih := joinNl_map_escape (g2 :: gs)
      simp only [List.map_cons, joinNl] at ih ⊢
      rw [ih, escape_html_append, escape_html_cons]
      have h : escapeSpec '\n' = ['\n'] := rfl
      simp [h]

/-- Whether an operation kind advances (and displays) the left line counter:
Equal and Deletion operations do. -/
def leftUses (op : Int) : Bool := op == 0 || op == -1

/-- Whether an operation kind advances (and displays) the right line counter:
Equal and Addition operations do. -/
def rightUses (op : Int) : Bool := !(op == -1)

/-- Number of fragments with index below `i` that satisfy the source's
increment condition `i < len(lines) - 1 or text.endswith('\n')`, for a payload
split into `n` fragments.  When the payload ends with a line break every
fragment satisfies it; otherwise exactly the fragments before the last. -/
def condCount (endsNl : Bool) (n i : Nat) : Nat :=
  if endsNl then i else min i (n - 1)

/-- Spec-side description of the emitted records (spec section 4.1 steps 2-4):
the record for the fragment at index `i` of a payload of `n` fragments carries
the current counter values, namely the start values plus the number of
line-terminating fragments emitted before it. -/
def specEmit (op : Int) (endsNl : Bool) (n l r : Nat) :
    List (List Char) → Nat → List Record
  | [], _ => []
  | line :: rest, i =>
      emitRecord op (l + condCount endsNl n i) (r + condCount endsNl n i) line ::
        specEmit op endsNl n l r rest (i + 1)

theorem condCount_zero (e : Bool) (n : Nat) : condCount e n 0 = 0 := by
  cases e <;> simp [condCount]

theorem condCount_succ (e : Bool) (m i : Nat) :
    condCount e (m + 1) (i + 1) =
      (if (decide (0 < m) || e) then 1 else 0) + condCount e m i := by
  cases e <;> simp [condCount, Nat.min_def] <;> (try split_ifs) <;> omega

theorem emitRecord_zero (l r : Nat) (line : List Char) :
    emitRecord 0 l r line =
      ⟨some l, some r, Classification.equal, escape_html line⟩ := by
  simp [emitRecord]

theorem emitRecord_neg_one (l r : Nat) (line : List Char) :
    emitRecord (-1) l r line =
      ⟨some l, none, Classification.deletion, escape_html line⟩ := by
  norm_num [emitRecord]

theorem emitRecord_other (op : Int) (h0 : op ≠ 0) (h1 : op ≠ -1)
    (l r : Nat) (line : List Char) :
    emitRecord op l r line =
      ⟨none, some r, Classification.insertion, escape_html line⟩ := by
  simp [emitRecord, h0, h1]

theorem leftUses_zero : leftUses 0 = true := rfl

theorem leftUses_neg_one : leftUses (-1) = true := rfl

theorem leftUses_other (op : Int) (h0 : op ≠ 0) (h1 : op ≠ -1) :
    leftUses op = false := by
  simp [leftUses, h0, h1]

theorem rightUses_zero : rightUses 0 = true := rfl

theorem rightUses_neg_one : rightUses (-1) = false := rfl

theorem rightUses_other (op : Int) (h1 : op ≠ -1) : rightUses op = true := by
  simp [rightUses, h1]

/-- The counter update performed by one iteration of the source's inner loop,
written per operation-kind branch exactly as in source lines 43-45, 55-56,
66-67. -/
def nextPair (op : Int) (inc : Bool) (l r : Nat) : Nat × Nat :=
  if op = 0 then (if inc then (l + 1, r + 1) else (l, r))
  else if op = -1 then (if inc then (l + 1, r) else (l, r))
  else (if inc then (l, r + 1) else (l, r))

theorem emitLines_cons (op : Int) (endsNl : Bool) (line : List Char)
    (rest : List (List Char)) (l r : Nat) :
    emitLines op endsNl (line :: rest) l r =
      (emitRecord op l r line ::
        (emitLines op endsNl rest
          (nextPair op (!rest.isEmpty || endsNl) l r).1
          (nextPair op (!rest.isEmpty || endsNl) l r).2).1,
       (emitLines op endsNl rest
          (nextPair op (!rest.isEmpty || endsNl) l r).1
          (nextPair op (!rest.isEmpty || endsNl) l r).2).2) := rfl

theorem nextPair_zero (inc : Bool) (l r : Nat) :
    nextPair 0 inc l r = (l + (if inc then 1 else 0), r + (if inc then 1 else 0)) := by
  cases inc <;> simp [nextPair]

theorem nextPair_neg_one (inc : Bool) (l r : Nat) :
    nextPair (-1) inc l r = (l + (if inc then 1 else 0), r) := by
  cases inc <;> norm_num [nextPair]

theorem nextPair_other (op : Int) (h0 : op ≠ 0) (h1 : op ≠ -1) (inc : Bool) (l r : Nat) :
    nextPair op inc l r = (l, r + (if inc then 1 else 0)) := by
  cases inc <;> simp [nextPair, h0, h1]

theorem specEmit_right_irrel (e : Bool) (n : Nat) :
    ∀ (frags : List (List Char)) (l r r' : Nat) (i : Nat),
      specEmit (-1) e n l r frags i = specEmit (-1) e n l r' frags i := by
  intro frags
  induction frags with
  | nil => intro l r r' i; rfl
  | cons line rest ih =>
      intro l r r' i
      simp only [specEmit, emitRecord_neg_one]
      exact congrArg _ (ih l r r' (i + 1))

theorem specEmit_left_irrel (op : Int) (h0 : op ≠ 0) (h1 : op ≠ -1)
    (e : Bool) (n : Nat) :
    ∀ (frags : List (List Char)) (l l' r : Nat) (i : Nat),
      specEmit op e n l r frags i = specEmit op e n l' r frags i := by
  intro frags
  induction frags with
  | nil => intro l l' r i; rfl
  | cons line rest ih =>
      intro l l' r i
      simp only [specEmit, emitRecord_other op h0 h1]
      exact congrArg _ (ih l l' r (i + 1))

theorem specEmit_shift (op : Int) (e : Bool) (m : Nat) :
    ∀ (frags : List (List Char)) (l r i : Nat),
      specEmit op e (m + 1) l r frags (i + 1) =
        specEmit op e m (l + (if (decide (0 < m) || e) then 1 else 0))
          (r + (if (decide (0 < m) || e) then 1 else 0)) frags i := by
  intro frags
  induction frags with
  | nil => intro l r i; rfl
  | cons line rest ih =>
      intro l r i
      simp only [specEmit]
      have hn : ∀ x : Nat,
          x + condCount e (m + 1) (i + 1) =
            (x + (if (decide (0 < m) || e) then 1 else 0)) + condCount e m i := by
        intro x; rw [condCount_succ]; omega
      rw [hn l, hn r, ih]

theorem notIsEmpty_eq (xs : List (List Char)) :
    (!xs.isEmpty) = decide (0 < xs.length) := by
  cases xs <;> simp

theorem emitLines_cons_zero (e : Bool) (line : List Char)
    (rest : List (List Char)) (l r : Nat) :
    emitLines 0 e (line :: rest) l r =
      (emitRecord 0 l r line ::
        (emitLines 0 e rest (l + (if (decide (0 < rest.length) || e) then 1 else 0))
          (r + (if (decide (0 < rest.length) || e) then 1 else 0))).1,
       (emitLines 0 e rest (l + (if (decide (0 < rest.length) || e) then 1 else 0))
          (r + (if (decide (0 < rest.length) || e) then 1 else 0))).2) := by
  rw [emitLines_cons, notIsEmpty_eq, nextPair_zero]

theorem emitLines_cons_neg_one (e : Bool) (line : List Char)
    (rest : List (List Char)) (l r : Nat) :
    emitLines (-1) e (line :: rest) l r =
      (emitRecord (-1) l r line ::
        (emitLines (-1) e rest (l + (if (decide (0 < rest.length) || e) then 1 else 0)) r).1,
       (emitLines (-1) e rest (l + (if (decide (0 < rest.length) || e) then 1 else 0)) r).2) := by
  rw [emitLines_cons, notIsEmpty_eq, nextPair_neg_one]

theorem emitLines_cons_other (op : Int) (h0 : op ≠ 0) (h1 : op ≠ -1)
    (e : Bool) (line : List Char) (rest : List (List Char)) (l r : Nat) :
    emitLines op e (line :: rest) l r =
      (emitRecord op l r line ::
        (emitLines op e rest l (r + (if (decide (0 < rest.length) || e) then 1 else 0))).1,
       (emitLines op e rest l (r + (if (decide (0 < rest.length) || e) then 1 else 0))).2) := by
  rw [emitLines_cons, notIsEmpty_eq, nextPair_other op h0 h1]

/-- Master characterization of the inner loop: `emitLines` emits exactly the
records described by `specEmit`, and the final counters exceed the start
values by the number of line-terminating fragments, on the side(s) the
operation kind uses. -/
theorem emitLines_eq (op : Int) (endsNl : Bool) :
    ∀ (frags : List (List Char)) (l r : Nat),
      emitLines op endsNl frags l r =
        (specEmit op endsNl frags.length l r frags 0,
         l + (if leftUses op then condCount endsNl frags.length frags.length else 0),
         r + (if rightUses op then condCount endsNl frags.length frags.length else 0)) := by
  intro frags
  induction frags with
  | nil =>
      intro l r
      simp [emitLines, specEmit, condCount_zero]
  | cons line rest ih =>
      intro l r
      have hunf : specEmit op endsNl (rest.length + 1) l r (line :: rest) 0 =
          emitRecord op (l + condCount endsNl (rest.length + 1) 0)
              (r + condCount endsNl (rest.length + 1) 0) line ::
            specEmit op endsNl (rest.length + 1) l r rest (0 + 1) := rfl
      by_cases h0 : op = 0
      · subst h0
        rw [emitLines_cons_zero, ih, List.length_cons, Prod.mk.injEq, Prod.mk.injEq]
        refine ⟨?_, ?_, ?_⟩
        · rw [hunf, condCount_zero, Nat.add_zero, Nat.add_zero, specEmit_shift]
        · rw [if_pos leftUses_zero, if_pos leftUses_zero, condCount_succ]
          omega
        · rw [if_pos rightUses_zero, if_pos rightUses_zero, condCount_succ]
          omega
      · by_cases h1 : op = -1
        · subst h1
          rw [emitLines_cons_neg_one, ih, List.length_cons, Prod.mk.injEq, Prod.mk.injEq]
          refine ⟨?_, ?_, ?_⟩
          · rw [hunf, condCount_zero, Nat.add_zero, Nat.add_zero, specEmit_shift]
            exact congrArg _ (specEmit_right_irrel endsNl rest.length rest _ r _ 0)
          · rw [if_pos leftUses_neg_one, if_pos leftUses_neg_one, condCount_succ]
            omega
          · simp [rightUses_neg_one]
        · rw [emitLines_cons_other op h0 h1, ih, List.length_cons,
            Prod.mk.injEq, Prod.mk.injEq]
          refine ⟨?_, ?_, ?_⟩
          · rw [hunf, condCount_zero, Nat.add_zero, Nat.add_zero, specEmit_shift]
            exact congrArg _ (specEmit_left_irrel op h0 h1 endsNl rest.length rest l _ _ 0)
          · simp [leftUses_other op h0 h1]
          · rw [if_pos (rightUses_other op h1), if_pos (rightUses_other op h1),
              condCount_succ]
            omega

theorem emitRecord_content (op : Int) (l r : Nat) (line : List Char) :
    (emitRecord op l r line).content = escape_html line := by
  simp only [emitRecord]
  split_ifs <;> rfl

/-- The content the record displays on the left side: defined for records
whose left line-number cell is filled. -/
def leftContent (rec : Record) : Option (List Char) :=
  if rec.leftNumber.isSome then some rec.content else none

/-- The content the record displays on the right side: defined for records
whose right line-number cell is filled. -/
def rightContent (rec : Record) : Option (List Char) :=
  if rec.rightNumber.isSome then some rec.content else none

theorem leftContent_emitRecord (op : Int) (l r : Nat) (line : List Char) :
    leftContent (emitRecord op l r line) =
      if leftUses op then some (escape_html line) else none := by
  by_cases h0 : op = 0
  · subst h0; rfl
  · by_cases h1 : op = -1
    · subst h1; rfl
    · simp [emitRecord, leftContent, leftUses, h0, h1]

theorem rightContent_emitRecord (op : Int) (l r : Nat) (line : List Char) :
    rightContent (emitRecord op l r line) =
      if rightUses op then some (escape_html line) else none := by
  by_cases h0 : op = 0
  · subst h0; rfl
  · by_cases h1 : op = -1
    · subst h1; rfl
    · simp [emitRecord, rightContent, rightUses, h0, h1]

theorem emitLines_contents (op : Int) (e : Bool) :
    ∀ (frags : List (List Char)) (l r : Nat),
      (emitLines op e frags l r).1.map Record.content = frags.map escape_html := by
  intro frags
  induction frags with
  | nil => intro l r; rfl
  | cons line rest ih =>
      intro l r
      rw [emitLines_cons]
      simp only [List.map_cons, emitRecord_content]
      rw [ih]

theorem emitLines_leftContents (op : Int) (e : Bool) :
    ∀ (frags : List (List Char)) (l r : Nat),
      (emitLines op e frags l r).1.filterMap leftContent =
        if leftUses op then frags.map escape_html else [] := by
  intro frags
  induction frags with
  | nil => intro l r; cases leftUses op <;> simp [emitLines]
  | cons line rest ih =>
      intro l r
      rw [emitLines_cons]
      cases hu : leftUses op <;>
        simp [List.filterMap_cons, leftContent_emitRecord, hu, ih]

theorem emitLines_rightContents (op : Int) (e : Bool) :
    ∀ (frags : List (List Char)) (l r : Nat),
      (emitLines op e frags l r).1.filterMap rightContent =
        if rightUses op then frags.map escape_html else [] := by
  intro frags
  induction frags with
  | nil => intro l r; cases rightUses op <;> simp [emitLines]
  | cons line rest ih =>
      intro l r
      rw [emitLines_cons]
      cases hu : rightUses op <;>
        simp [List.filterMap_cons, rightContent_emitRecord, hu, ih]

theorem processDiffs_map_content :
    ∀ (diffs : List (Int × List Char)) (l r : Nat),
      (processDiffs diffs l r).map Record.content =
        (diffs.map (fun d => (splitNl d.2).map escape_html)).flatten := by
  intro diffs
  induction diffs with
  | nil => intro l r; rfl
  | cons d rest ih =>
      intro l r
      obtain ⟨op, text⟩ := d
      simp only [processDiffs, List.map_append, List.map_cons, List.flatten_cons]
      rw [emitLines_contents, ih]

theorem processDiffs_left_contents :
    ∀ (diffs : List (Int × List Char)) (l r : Nat),
      (processDiffs diffs l r).filterMap leftContent =
        ((diffs.filter (fun d => leftUses d.1)).map
          (fun d => (splitNl d.2).map escape_html)).flatten := by
  intro diffs
  induction diffs with
  | nil => intro l r; rfl
  | cons d rest ih =>
      intro l r
      obtain ⟨op, text⟩ := d
      simp only [processDiffs, List.filterMap_append, List.filter_cons]
      rw [emitLines_leftContents, ih]
      cases hu : leftUses op <;> simp [hu]

theorem processDiffs_right_contents :
    ∀ (diffs : List (Int × List Char)) (l r : Nat),
      (processDiffs diffs l r).filterMap rightContent =
        ((diffs.filter (fun d => rightUses d.1)).map
          (fun d => (splitNl d.2).map escape_html)).flatten := by
  intro diffs
  induction diffs with
  | nil => intro l r; rfl
  | cons d rest ih =>
      intro l r
      obtain ⟨op, text⟩ := d
      simp only [processDiffs, List.filterMap_append, List.filter_cons]
      rw [emitLines_rightContents, ih]
      cases hu : rightUses op <;> simp [hu]

/-- Joining each group's escaped fragments on line breaks and concatenating
the groups yields the escape of the concatenated payloads. -/
theorem groups_reconstruct :
    ∀ ds : List (Int × List Char),
      (ds.map (fun d => joinNl ((splitNl d.2).map escape_html))).flatten =
        escape_html ((ds.map Prod.snd).flatten) := by
  intro ds
  induction ds with
  | nil => rfl
  | cons d rest ih =>
      simp only [List.map_cons, List.flatten_cons]
      rw [ih, joinNl_map_escape, joinNl_splitNl, escape_html_append]

/-- C7: every rendered record stores the HTML-escaped form of its line.  The
contents of the rendered records are exactly the escape of the payload
fragments; `escape_html` is the character-wise substitution replacing `&` by
`&amp;`, `<` by `&lt;` and `>` by `&gt;`; and a `<script>` line is stored as
`&lt;script&gt;`, never raw. -/
theorem C7_escaping :
    (∀ (diffs : List (Int × List Char)) (l r : Nat),
        (processDiffs diffs l r).map Record.content =
          (diffs.map (fun d => (splitNl d.2).map escape_html)).flatten)
    ∧ (∀ s : List Char, escape_html s = joinMap escapeSpec s)
    ∧ escape_html (chars "<script>") = chars "&lt;script&gt;" := by
  refine ⟨processDiffs_map_content, escape_html_eq_joinMap, ?_⟩
  decide

/-- C4 (amended): the claim as stated fails because record contents are
stored HTML-escaped; what the renderer reconstructs is the escape of the
input.  Amended statement: if the Equal and Delete payloads concatenate to
the left text (the edit-script validity invariant), then the contents of the
records with a defined left number are exactly the escaped fragments of those
payloads, and restoring the original line breaks between the fragments of
each payload and concatenating reproduces `escape_html` of the left text;
symmetrically on the right. -/
theorem C4_reconstruction_escaped
    (diffs : List (Int × List Char)) (t1 t2 : List Char) (l r : Nat)
    (hleft : ((diffs.filter (fun d => leftUses d.1)).map Prod.snd).flatten = t1)
    (hright : ((diffs.filter (fun d => rightUses d.1)).map Prod.snd).flatten = t2) :
    ((processDiffs diffs l r).filterMap leftContent =
        ((diffs.filter (fun d => leftUses d.1)).map
          (fun d => (splitNl d.2).map escape_html)).flatten)
    ∧ ((diffs.filter (fun d => leftUses d.1)).map
          (fun d => joinNl ((splitNl d.2).map escape_html))).flatten = escape_html t1
    ∧ ((processDiffs diffs l r).filterMap rightContent =
        ((diffs.filter (fun d => rightUses d.1)).map
          (fun d => (splitNl d.2).map escape_html)).flatten)
    ∧ ((diffs.filter (fun d => rightUses d.1)).map
          (fun d => joinNl ((splitNl d.2).map escape_html))).flatten = escape_html t2 := by
  refine ⟨processDiffs_left_contents diffs l r, ?_, processDiffs_right_contents diffs l r, ?_⟩
  · rw [groups_reconstruct, hleft]
  · rw [groups_reconstruct, hright]

theorem C4_reconstruction_escaped_witness :
    ((([((0 : Int), chars "a&\n"), ((-1 : Int), chars "b"), ((1 : Int), chars "c")].filter
        (fun d => leftUses d.1)).map Prod.snd).flatten = chars "a&\nb")
    ∧ (([((0 : Int), chars "a&\n"), ((-1 : Int), chars "b"), ((1 : Int), chars "c")].filter
        (fun d => leftUses d.1)).map
          (fun d => joinNl ((splitNl d.2).map escape_html))).flatten =
        escape_html (chars "a&\nb") :=
  ⟨by decide,
   (C4_reconstruction_escaped
      [((0 : Int), chars "a&\n"), ((-1 : Int), chars "b"), ((1 : Int), chars "c")]
      (chars "a&\nb") (chars "a&\nc") 1 1 (by decide) (by decide)).2.1⟩

/-- C4 counterexample: as literally stated the claim is false — the stored
contents are HTML-escaped, so for the identical one-line texts `"&"` the only
left-side record has content `"&amp;"`, and its concatenation (there are no
line breaks to restore) is `"&amp;"`, not the left text `"&"`. -/
theorem C4_exact_reconstruction_counterexample :
    ((processDiffs (diff_main_self (chars "&")) 1 1).filterMap leftContent).flatten =
        chars "&amp;"
    ∧ chars "&amp;" ≠ chars "&" := by
  decide

/-- Follows the spec's words (section 4.1 edge-case rule): the relevant
side's counter — both for Equal, left for Delete, right for Insert — is
incremented exactly when `inc` holds, where `inc` is "the fragment is not the
last fragment of its payload, or the payload ends with a line break". -/
def specBump (op : Int) (inc : Bool) (st : Nat × Nat) : Nat × Nat :=
  if inc then
    (if op = 0 then (st.1 + 1, st.2 + 1)
     else if op = -1 then (st.1 + 1, st.2)
     else (st.1, st.2 + 1))
  else st

theorem specBump_eq_nextPair (op : Int) (inc : Bool) (l r : Nat) :
    specBump op inc (l, r) = nextPair op inc l r := by
  cases inc <;> simp only [specBump, nextPair] <;> split_ifs <;> rfl

/-- C5: after emitting the record for a fragment, the loop continues with the
counters updated by `specBump`, whose condition is exactly "the fragment is
not the last fragment of the payload (`!rest.isEmpty`) or the payload ends
with a line break (`endsNl`)"; and `specBump` increments the relevant side's
counter by exactly one when that condition holds and leaves the state
unchanged otherwise. -/
theorem C5_increment_condition :
    (∀ (op : Int) (endsNl : Bool) (line : List Char)
        (rest : List (List Char)) (l r : Nat),
      emitLines op endsNl (line :: rest) l r =
        (emitRecord op l r line ::
          (emitLines op endsNl rest
            (specBump op (!rest.isEmpty || endsNl) (l, r)).1
            (specBump op (!rest.isEmpty || endsNl) (l, r)).2).1,
         (emitLines op endsNl rest
            (specBump op (!rest.isEmpty || endsNl) (l, r)).1
            (specBump op (!rest.isEmpty || endsNl) (l, r)).2).2))
    ∧ (∀ st : Nat × Nat,
        (∀ op : Int, specBump op false st = st)
        ∧ specBump 0 true st = (st.1 + 1, st.2 + 1)
        ∧ specBump (-1) true st = (st.1 + 1, st.2)
        ∧ specBump 1 true st = (st.1, st.2 + 1)) := by
  constructor
  · intro op endsNl line rest l r
    rw [specBump_eq_nextPair, emitLines_cons]
  · intro st
    refine ⟨fun op => rfl, rfl, ?_, ?_⟩ <;> norm_num [specBump]

theorem specEmit_mem (op : Int) (e : Bool) (n : Nat) :
    ∀ (frags : List (List Char)) (l r i : Nat) (rec : Record),
      rec ∈ specEmit op e n l r frags i →
        ∃ a b line, rec = emitRecord op a b line := by
  intro frags
  induction frags with
  | nil => intro l r i rec h; simp [specEmit] at h
  | cons line rest ih =>
      intro l r i rec h
      simp only [specEmit, List.mem_cons] at h
      rcases h with h | h
      · exact ⟨_, _, _, h⟩
      · exact ih l r (i + 1) rec h

/-- C6: for each operation kind the inner loop emits exactly the records of
`specEmit` — each record carrying the current counter value(s), i.e. the
start value plus the number of line-terminating fragments before it — and
advances only the counters that kind uses: a Delete payload leaves the right
counter untouched and produces only Deletion records with an undefined right
number; an Insert payload leaves the left counter untouched and produces only
Insertion records with an undefined left number; an Equal payload advances
both counters together and produces only Equal records with both numbers
defined. -/
theorem C6_per_operation_records :
    (∀ (text : List Char) (l r : Nat),
      (emitLines 0 (endsWithNl text) (splitNl text) l r =
        (specEmit 0 (endsWithNl text) (splitNl text).length l r (splitNl text) 0,
         l + condCount (endsWithNl text) (splitNl text).length (splitNl text).length,
         r + condCount (endsWithNl text) (splitNl text).length (splitNl text).length))
      ∧ ∀ rec ∈ (emitLines 0 (endsWithNl text) (splitNl text) l r).1,
          rec.classification = Classification.equal
          ∧ rec.leftNumber.isSome ∧ rec.rightNumber.isSome)
    ∧ (∀ (text : List Char) (l r : Nat),
      (emitLines (-1) (endsWithNl text) (splitNl text) l r =
        (specEmit (-1) (endsWithNl text) (splitNl text).length l r (splitNl text) 0,
         l + condCount (endsWithNl text) (splitNl text).length (splitNl text).length,
         r))
      ∧ ∀ rec ∈ (emitLines (-1) (endsWithNl text) (splitNl text) l r).1,
          rec.classification = Classification.deletion
          ∧ rec.leftNumber.isSome ∧ rec.rightNumber = none)
    ∧ (∀ (op : Int), op ≠ 0 → op ≠ -1 → ∀ (text : List Char) (l r : Nat),
      (emitLines op (endsWithNl text) (splitNl text) l r =
        (specEmit op (endsWithNl text) (splitNl text).length l r (splitNl text) 0,
         l,
         r + condCount (endsWithNl text) (splitNl text).length (splitNl text).length))
      ∧ ∀ rec ∈ (emitLines op (endsWithNl text) (splitNl text) l r).1,
          rec.classification = Classification.insertion
          ∧ rec.leftNumber = none ∧ rec.rightNumber.isSome) := by
  refine ⟨fun text l r => ⟨?_, ?_⟩, fun text l r => ⟨?_, ?_⟩,
    fun op h0 h1 text l r => ⟨?_, ?_⟩⟩
  · rw [emitLines_eq]
    simp [leftUses_zero, rightUses_zero]
  · intro rec hrec
    rw [emitLines_eq] at hrec
    obtain ⟨a, b, line, rfl⟩ :=
      specEmit_mem 0 (endsWithNl text) (splitNl text).length (splitNl text) _ _ 0 rec hrec
    rw [emitRecord_zero]
    exact ⟨rfl, rfl, rfl⟩
  · rw [emitLines_eq]
    simp [leftUses_neg_one, rightUses_neg_one]
  · intro rec hrec
    rw [emitLines_eq] at hrec
    obtain ⟨a, b, line, rfl⟩ :=
      specEmit_mem (-1) (endsWithNl text) (splitNl text).length (splitNl text) _ _ 0 rec hrec
    rw [emitRecord_neg_one]
    exact ⟨rfl, rfl, rfl⟩
  · rw [emitLines_eq]
    simp [leftUses_other op h0 h1, rightUses_other op h1]
  · intro rec hrec
    rw [emitLines_eq] at hrec
    obtain ⟨a, b, line, rfl⟩ :=
      specEmit_mem op (endsWithNl text) (splitNl text).length (splitNl text) _ _ 0 rec hrec
    rw [emitRecord_other op h0 h1]
    exact ⟨rfl, rfl, rfl⟩

theorem C6_per_operation_records_witness :
    emitLines 1 (endsWithNl (chars "x\n")) (splitNl (chars "x\n")) 5 7 =
      (specEmit 1 (endsWithNl (chars "x\n")) (splitNl (chars "x\n")).length 5 7
        (splitNl (chars "x\n")) 0,
       5,
       7 + condCount (endsWithNl (chars "x\n")) (splitNl (chars "x\n")).length
            (splitNl (chars "x\n")).length) :=
  (C6_per_operation_records.2.2 1 (by decide) (by decide) (chars "x\n") 5 7).1

/-- Trajectory of one display counter: `NumChain l xs f` holds when the list
`xs` of displayed numbers can be produced by a counter that starts at `l`,
displays its current value for each element, after each element either stays
or advances by one, and finishes at `f`. -/
inductive NumChain : Nat → List Nat → Nat → Prop
  | nil (l : Nat) : NumChain l [] l
  | stay (l : Nat) (xs : List Nat) (f : Nat) :
      NumChain l xs f → NumChain l (l :: xs) f
  | step (l : Nat) (xs : List Nat) (f : Nat) :
      NumChain (l + 1) xs f → NumChain l (l :: xs) f

theorem numChain_append {l m f : Nat} {xs ys : List Nat}
    (h1 : NumChain l xs m) (h2 : NumChain m ys f) : NumChain l (xs ++ ys) f := by
  induction h1 with
  | nil _ => simpa using h2
  | stay a as g h ih => exact NumChain.stay _ _ _ (ih h2)
  | step a as g h ih => exact NumChain.step _ _ _ (ih h2)

theorem numChain_head {l f : Nat} {xs : List Nat} (h : NumChain l xs f) :
    xs = [] ∨ xs.head? = some l := by
  cases h with
  | nil _ => exact Or.inl rfl
  | stay _ _ _ _ => exact Or.inr rfl
  | step _ _ _ _ => exact Or.inr rfl

theorem numChain_chain {l f : Nat} {xs : List Nat} (h : NumChain l xs f) :
    List.Chain' (fun a b => b = a ∨ b = a + 1) xs := by
  induction h with
  | nil _ => exact List.chain'_nil
  | stay a as g h ih =>
      refine List.chain'_cons'.mpr ⟨?_, ih⟩
      intro y hy
      rcases numChain_head h with hnil | hhd
      · subst hnil; simp at hy
      · rw [hhd] at hy
        simp at hy
        exact Or.inl hy.symm
  | step a as g h ih =>
      refine List.chain'_cons'.mpr ⟨?_, ih⟩
      intro y hy
      rcases numChain_head h with hnil | hhd
      · subst hnil; simp at hy
      · rw [hhd] at hy
        simp at hy
        exact Or.inr hy.symm

theorem numChain_build (l f b : Nat) (xs : List Nat) (hb : b = 0 ∨ b = 1)
    (h : NumChain (l + b) xs f) : NumChain l (l :: xs) f := by
  rcases hb with rfl | rfl
  · exact NumChain.stay _ _ _ (by simpa using h)
  · exact NumChain.step _ _ _ h

theorem emitLines_cons_zero_fst (e : Bool) (line : List Char)
    (rest : List (List Char)) (l r : Nat) :
    (emitLines 0 e (line :: rest) l r).1 =
      emitRecord 0 l r line ::
        (emitLines 0 e rest (l + (if (decide (0 < rest.length) || e) then 1 else 0))
          (r + (if (decide (0 < rest.length) || e) then 1 else 0))).1 := by
  rw [emitLines_cons_zero]

theorem emitLines_cons_zero_snd (e : Bool) (line : List Char)
    (rest : List (List Char)) (l r : Nat) :
    (emitLines 0 e (line :: rest) l r).2 =
      (emitLines 0 e rest (l + (if (decide (0 < rest.length) || e) then 1 else 0))
        (r + (if (decide (0 < rest.length) || e) then 1 else 0))).2 := by
  rw [emitLines_cons_zero]

theorem emitLines_cons_neg_one_fst (e : Bool) (line : List Char)
    (rest : List (List Char)) (l r : Nat) :
    (emitLines (-1) e (line :: rest) l r).1 =
      emitRecord (-1) l r line ::
        (emitLines (-1) e rest (l + (if (decide (0 < rest.length) || e) then 1 else 0)) r).1 := by
  rw [emitLines_cons_neg_one]

theorem emitLines_cons_neg_one_snd (e : Bool) (line : List Char)
    (rest : List (List Char)) (l r : Nat) :
    (emitLines (-1) e (line :: rest) l r).2 =
      (emitLines (-1) e rest (l + (if (decide (0 < rest.length) || e) then 1 else 0)) r).2 := by
  rw [emitLines_cons_neg_one]

theorem emitLines_cons_other_fst (op : Int) (h0 : op ≠ 0) (h1 : op ≠ -1)
    (e : Bool) (line : List Char) (rest : List (List Char)) (l r : Nat) :
    (emitLines op e (line :: rest) l r).1 =
      emitRecord op l r line ::
        (emitLines op e rest l (r + (if (decide (0 < rest.length) || e) then 1 else 0))).1 := by
  rw [emitLines_cons_other op h0 h1]

theorem emitLines_cons_other_snd (op : Int) (h0 : op ≠ 0) (h1 : op ≠ -1)
    (e : Bool) (line : List Char) (rest : List (List Char)) (l r : Nat) :
    (emitLines op e (line :: rest) l r).2 =
      (emitLines op e rest l (r + (if (decide (0 < rest.length) || e) then 1 else 0))).2 := by
  rw [emitLines_cons_other op h0 h1]

theorem emitLines_numChain_left (op : Int) (e : Bool) :
    ∀ (frags : List (List Char)) (l r : Nat),
      NumChain l ((emitLines op e frags l r).1.filterMap Record.leftNumber)
        (emitLines op e frags l r).2.1 := by
  intro frags
  induction frags with
  | nil => intro l r; exact NumChain.nil l
  | cons line rest ih =>
      intro l r
      by_cases h0 : op = 0
      · subst h0
        rw [emitLines_cons_zero_fst, emitLines_cons_zero_snd,
          List.filterMap_cons_some
            (show Record.leftNumber (emitRecord 0 l r line) = some l by
              rw [emitRecord_zero])]
        exact numChain_build _ _ _ _ (by split_ifs <;> simp) (ih _ _)
      · by_cases h1 : op = -1
        · subst h1
          rw [emitLines_cons_neg_one_fst, emitLines_cons_neg_one_snd,
            List.filterMap_cons_some
              (show Record.leftNumber (emitRecord (-1) l r line) = some l by
                rw [emitRecord_neg_one])]
          exact numChain_build _ _ _ _ (by split_ifs <;> simp) (ih _ _)
        · rw [emitLines_cons_other_fst op h0 h1, emitLines_cons_other_snd op h0 h1,
            List.filterMap_cons_none
              (show Record.leftNumber (emitRecord op l r line) = none by
                rw [emitRecord_other op h0 h1])]
          exact ih _ _

theorem emitLines_numChain_right (op : Int) (e : Bool) :
    ∀ (frags : List (List Char)) (l r : Nat),
      NumChain r ((emitLines op e frags l r).1.filterMap Record.rightNumber)
        (emitLines op e frags l r).2.2 := by
  intro frags
  induction frags with
  | nil => intro l r; exact NumChain.nil r
  | cons line rest ih =>
      intro l r
      by_cases h0 : op = 0
      · subst h0
        rw [emitLines_cons_zero_fst, emitLines_cons_zero_snd,
          List.filterMap_cons_some
            (show Record.rightNumber (emitRecord 0 l r line) = some r by
              rw [emitRecord_zero])]
        exact numChain_build _ _ _ _ (by split_ifs <;> simp) (ih _ _)
      · by_cases h1 : op = -1
        · subst h1
          rw [emitLines_cons_neg_one_fst, emitLines_cons_neg_one_snd,
            List.filterMap_cons_none
              (show Record.rightNumber (emitRecord (-1) l r line) = none by
                rw [emitRecord_neg_one])]
          exact ih _ _
        · rw [emitLines_cons_other_fst op h0 h1, emitLines_cons_other_snd op h0 h1,
            List.filterMap_cons_some
              (show Record.rightNumber (emitRecord op l r line) = some r by
                rw [emitRecord_other op h0 h1])]
          exact numChain_build _ _ _ _ (by split_ifs <;> simp) (ih _ _)

theorem processDiffs_numChain_left :
    ∀ (diffs : List (Int × List Char)) (l r : Nat),
      ∃ f, NumChain l ((processDiffs diffs l r).filterMap Record.leftNumber) f := by
  intro diffs
  induction diffs with
  | nil => intro l r; exact ⟨l, NumChain.nil l⟩
  | cons d rest ih =>
      intro l r
      obtain ⟨op, text⟩ := d
      simp only [processDiffs]
      rw [List.filterMap_append]
      obtain ⟨f, hf⟩ :=
        ih (emitLines op (endsWithNl text) (splitNl text) l r).2.1
          (emitLines op (endsWithNl text) (splitNl text) l r).2.2
      exact ⟨f, numChain_append (emitLines_numChain_left op _ (splitNl text) l r) hf⟩

theorem processDiffs_numChain_right :
    ∀ (diffs : List (Int × List Char)) (l r : Nat),
      ∃ f, NumChain r ((processDiffs diffs l r).filterMap Record.rightNumber) f := by
  intro diffs
  induction diffs with
  | nil => intro l r; exact ⟨r, NumChain.nil r⟩
  | cons d rest ih =>
      intro l r
      obtain ⟨op, text⟩ := d
      simp only [processDiffs]
      rw [List.filterMap_append]
      obtain ⟨f, hf⟩ :=
        ih (emitLines op (endsWithNl text) (splitNl text) l r).2.1
          (emitLines op (endsWithNl text) (splitNl text) l r).2.2
      exact ⟨f, numChain_append (emitLines_numChain_right op _ (splitNl text) l r) hf⟩

/-- C3 (amended): the defined left numbers (and symmetrically the right
numbers) are NOT strictly increasing in general — a fragment that does not
terminate a line repeats the current number on the next record.  What holds
is: the defined numbers form a non-decreasing gapless sequence, starting at 1
and with each consecutive value equal to the previous one or its successor. -/
theorem C3_gapless_nondecreasing (diffs : List (Int × List Char)) :
    (List.Chain' (fun a b => b = a ∨ b = a + 1)
        ((processDiffs diffs 1 1).filterMap Record.leftNumber)
      ∧ ((processDiffs diffs 1 1).filterMap Record.leftNumber ≠ [] →
          ((processDiffs diffs 1 1).filterMap Record.leftNumber).head? = some 1))
    ∧ (List.Chain' (fun a b => b = a ∨ b = a + 1)
        ((processDiffs diffs 1 1).filterMap Record.rightNumber)
      ∧ ((processDiffs diffs 1 1).filterMap Record.rightNumber ≠ [] →
          ((processDiffs diffs 1 1).filterMap Record.rightNumber).head? = some 1)) := by
  obtain ⟨fL, hL⟩ := processDiffs_numChain_left diffs 1 1
  obtain ⟨fR, hR⟩ := processDiffs_numChain_right diffs 1 1
  refine ⟨⟨numChain_chain hL, ?_⟩, ⟨numChain_chain hR, ?_⟩⟩
  · intro hne
    rcases numChain_head hL with hnil | hhd
    · exact absurd hnil hne
    · exact hhd
  · intro hne
    rcases numChain_head hR with hnil | hhd
    · exact absurd hnil hne
    · exact hhd

theorem C3_gapless_nondecreasing_witness :
    ((processDiffs [((0 : Int), chars "a")] 1 1).filterMap Record.leftNumber).head? =
      some 1 :=
  (C3_gapless_nondecreasing [((0 : Int), chars "a")]).1.2 (by decide)

/-- C3 counterexample: for the texts "hello world\nfoo" and
"hello there\nfoo" the canonical edit script (which reconstructs both sides,
as the first two conjuncts check) produces defined left numbers [1, 1, 1, 2]:
the in-line edit repeats the current number, so the sequence is not strictly
increasing and a prefix may contain more defined-left records than the value
of its last left number. -/
theorem C3_strict_increase_counterexample :
    ((([((0 : Int), chars "hello "), ((-1 : Int), chars "world"),
        ((1 : Int), chars "there"), ((0 : Int), chars "\nfoo")].filter
          (fun d => leftUses d.1)).map Prod.snd).flatten = chars "hello world\nfoo")
    ∧ ((([((0 : Int), chars "hello "), ((-1 : Int), chars "world"),
        ((1 : Int), chars "there"), ((0 : Int), chars "\nfoo")].filter
          (fun d => rightUses d.1)).map Prod.snd).flatten = chars "hello there\nfoo")
    ∧ (processDiffs [((0 : Int), chars "hello "), ((-1 : Int), chars "world"),
        ((1 : Int), chars "there"), ((0 : Int), chars "\nfoo")] 1 1).filterMap
          Record.leftNumber = [1, 1, 1, 2]
    ∧ ¬ List.Chain' (fun a b : Nat => a < b)
        ((processDiffs [((0 : Int), chars "hello "), ((-1 : Int), chars "world"),
          ((1 : Int), chars "there"), ((0 : Int), chars "\nfoo")] 1 1).filterMap
            Record.leftNumber) := by
  refine ⟨by decide, by decide, by decide, ?_⟩
  have h : (processDiffs [((0 : Int), chars "hello "), ((-1 : Int), chars "world"),
      ((1 : Int), chars "there"), ((0 : Int), chars "\nfoo")] 1 1).filterMap
        Record.leftNumber = [1, 1, 1, 2] := by decide
  rw [h]
  intro hc
  exact absurd (List.chain'_cons.mp hc).1 (by omega)

/-- The static CSS attached to every render (source lines 69-110), verbatim;
braces are written with character escapes. -/
def stylesText : List Char := chars (
  "\n" ++
  "    .diff-container \x7b\n" ++
  "        font-family: ui-monospace, SFMono-Regular, Menlo, Monaco, Consolas, Liberation Mono, Courier New, monospace;\n" ++
  "        font-size: 0.875rem;\n" ++
  "        line-height: 1.25rem;\n" ++
  "        width: 100%;\n" ++
  "    \x7d\n" ++
  "    .diff-line \x7b\n" ++
  "        display: flex;\n" ++
  "        border-bottom: 1px solid hsl(var(--border));\n" ++
  "    \x7d\n" ++
  "    .line-number \x7b\n" ++
  "        padding: 0 0.5rem;\n" ++
  "        text-align: right;\n" ++
  "        min-width: 3rem;\n" ++
  "        user-select: none;\n" ++
  "        color: hsl(var(--muted-foreground));\n" ++
  "        border-right: 1px solid hsl(var(--border));\n" ++
  "    \x7d\n" ++
  "    .line-content \x7b\n" ++
  "        padding: 0 0.5rem;\n" ++
  "        white-space: pre;\n" ++
  "        flex: 1;\n" ++
  "        overflow-x: auto;\n" ++
  "    \x7d\n" ++
  "    .diff-deletion \x7b\n" ++
  "        background-color: rgba(239, 68, 68, 0.2);\n" ++
  "    \x7d\n" ++
  "    .diff-addition \x7b\n" ++
  "        background-color: rgba(34, 197, 94, 0.2);\n" ++
  "    \x7d\n" ++
  "    .diff-equal \x7b\n" ++
  "        color: hsl(var(--foreground));\n" ++
  "    \x7d\n" ++
  "    .diff-deletion-text \x7b\n" ++
  "        color: rgb(239, 68, 68);\n" ++
  "        text-decoration: line-through;\n" ++
  "    \x7d\n" ++
  "    .diff-addition-text \x7b\n" ++
  "        color: rgb(34, 197, 94);\n" ++
  "    \x7d\n" ++
  "    ")

/-- `create_diff_html` (source lines 17-112), with the HTML serialization
abstracted to the structured records and with the external edit-script
collaborator (`dmp.diff_main` plus `dmp.diff_cleanupSemantic`, lines 18-20)
passed in as a function `diffFn`.  Returns the rendered records and the
static style text. -/
def create_diff_html (diffFn : List Char → List Char → List (Int × List Char))
    (text1 text2 : List Char) : List Record × List Char :=
  (processDiffs (diffFn text1 text2) 1 1, stylesText)

/-- The response of the diff endpoint: rendered lines plus style text. -/
structure DiffResponse where
  diff_html : List Record
  styles : List Char
  deriving DecidableEq

/-- `diff_get_diff` (source lines 143-152): null/missing inputs are replaced
by empty text, then `create_diff_html(repo_content, workspace_content)` is
called — the repository content is the left text.  The container wrapper
around the html belongs to the abstracted markup. -/
def diff_get_diff (diffFn : List Char → List Char → List (Int × List Char))
    (workspace_content repo_content : Option (List Char)) : DiffResponse :=
  ⟨(create_diff_html diffFn (repo_content.getD []) (workspace_content.getD [])).1,
   (create_diff_html diffFn (repo_content.getD []) (workspace_content.getD [])).2⟩

/-- C8: the render endpoint is a total pure function of its inputs (the
embedding returns a plain value for all inputs and all collaborator
functions): null or missing inputs are treated exactly like empty text, the
style metadata is the same constant on every call, and two calls with the
same inputs yield identical outputs. -/
theorem C8_total_pure_deterministic :
    (∀ (diffFn : List Char → List Char → List (Int × List Char))
        (ws repo : Option (List Char)),
        diff_get_diff diffFn ws repo =
          diff_get_diff diffFn (some (ws.getD [])) (some (repo.getD [])))
    ∧ (∀ (diffFn : List Char → List Char → List (Int × List Char))
        (ws repo : Option (List Char)),
        (diff_get_diff diffFn ws repo).styles = stylesText)
    ∧ (∀ (diffFn : List Char → List Char → List (Int × List Char))
        (ws repo : Option (List Char)) (y z : DiffResponse),
        diff_get_diff diffFn ws repo = y → diff_get_diff diffFn ws repo = z →
          y = z) := by
  refine ⟨fun diffFn ws repo => rfl, fun diffFn ws repo => rfl, ?_⟩
  intro diffFn ws repo y z hy hz
  exact hy.symm.trans hz

theorem C8_total_pure_deterministic_witness :
    diff_get_diff (fun t1 _ => diff_main_self t1) none none =
      diff_get_diff (fun t1 _ => diff_main_self t1) none none :=
  C8_total_pure_deterministic.2.2 (fun t1 _ => diff_main_self t1) none none _ _ rfl rfl

/-- Python's one-character whitespace test used by `str.strip()` (the branch
names handled by the source are ASCII). -/
def isPySpace (c : Char) : Bool :=
  c = ' ' || c = '\t' || c = '\n' || c = '\r' || c = '\x0b' || c = '\x0c'

/-- Python's `str.strip()`: drop whitespace from both ends. -/
def pyStrip (s : List Char) : List Char :=
  ((s.dropWhile isPySpace).reverse.dropWhile isPySpace).reverse

/-- Membership in the character class `[a-zA-Z0-9-_]` of the source's
`re.sub` (DB_branch_apis line 65): ASCII letters, digits, hyphen,
underscore. -/
def isBranchChar (c : Char) : Bool :=
  (decide ('a' ≤ c) && decide (c ≤ 'z'))
    || (decide ('A' ≤ c) && decide (c ≤ 'Z'))
    || (decide ('0' ≤ c) && decide (c ≤ '9'))
    || c = '-' || c = '_'

/-- `sanitize_branch_name` (DB_branch_apis lines 58-65): strip whitespace,
replace spaces with hyphens, then delete every character outside
`[a-zA-Z0-9-_]` — a substitution of a one-character class by the empty string
is a filter. -/
def sanitize_branch_name (name : List Char) : List Char :=
  (replaceChar ' ' ['-'] (pyStrip name)).filter isBranchChar

/-- The git ref path that `branch_create_branch` sends (DB_branch_apis lines
88-101): `none` when the sanitized name is empty (the source then returns an
"Invalid branch name" failure without any request), otherwise
`refs/heads/` followed by the sanitized — not the requested — name. -/
def branch_create_ref (branch_name : List Char) : Option (List Char) :=
  if sanitize_branch_name branch_name = [] then none
  else some (chars "refs/heads/" ++ sanitize_branch_name branch_name)

/-- C10: every character of a sanitized branch name lies in the class of
ASCII letters, digits, hyphens and underscores; the ref name sent to the
remote is the fixed `refs/heads/` path followed by such a sanitized name; and
the sanitized name can differ from the requested one, which the source then
creates silently — "my branch!" is created as "my-branch". -/
theorem C10_sanitized_branch_chars :
    (∀ (name : List Char) (c : Char),
        c ∈ sanitize_branch_name name → isBranchChar c = true)
    ∧ (∀ (name ref : List Char), branch_create_ref name = some ref →
        ∃ s, ref = chars "refs/heads/" ++ s ∧ ∀ c ∈ s, isBranchChar c = true)
    ∧ branch_create_ref (chars "my branch!") = some (chars "refs/heads/my-branch")
    ∧ chars "my-branch" ≠ chars "my branch!" := by
  refine ⟨?_, ?_, by decide, by decide⟩
  · intro name c hc
    exact (List.mem_filter.mp hc).2
  · intro name ref h
    unfold branch_create_ref at h
    by_cases hs : sanitize_branch_name name = []
    · rw [if_pos hs] at h
      exact absurd h (by simp)
    · rw [if_neg hs] at h
      refine ⟨sanitize_branch_name name, (Option.some.inj h).symm, ?_⟩
      intro c hc
      exact (List.mem_filter.mp hc).2

theorem C10_sanitized_branch_chars_witness : isBranchChar 'm' = true :=
  C10_sanitized_branch_chars.1 (chars "my branch!") 'm' (by decide)

/-- Python's `str.replace(old, new)` for a general nonempty pattern: scan
left to right; at a position where the pattern is a prefix, emit the
replacement and skip the pattern; otherwise keep the character.  This is the
leftmost non-overlapping replacement Python performs. -/
def replaceList (pat repl : List Char) : List Char → List Char
  | [] => []
  | c :: rest =>
      if pat ≠ [] ∧ pat.isPrefixOf (c :: rest) = true then
        repl ++ replaceList pat repl (rest.drop (pat.length - 1))
      else
        c :: replaceList pat repl rest
  termination_by l => l.length
  decreasing_by
    · simp only [List.length_drop, List.length_cons]
      omega
    · simp only [List.length_cons]
      omega

/-- The reverse substitutions of the implicit claim, in its order: `&lt;`
back to `<`, then `&gt;` back to `>`, then `&amp;` back to `&` (the patterns
are the character lists of those strings). -/
def unescape (s : List Char) : List Char :=
  replaceList ['&', 'a', 'm', 'p', ';'] ['&']
    (replaceList ['&', 'g', 't', ';'] ['>']
      (replaceList ['&', 'l', 't', ';'] ['<'] s))

theorem replaceList_nil (pat repl : List Char) : replaceList pat repl [] = [] := by
  simp [replaceList]

theorem replaceList_skip (pat repl : List Char) (c : Char) (rest : List Char)
    (h : pat.isPrefixOf (c :: rest) = false) :
    replaceList pat repl (c :: rest) = c :: replaceList pat repl rest := by
  rw [replaceList, if_neg]
  rintro ⟨-, h2⟩
  rw [h] at h2
  exact Bool.noConfusion h2

theorem replaceList_match (p : Char) (ps repl : List Char) (c : Char) (rest : List Char)
    (h : (p :: ps).isPrefixOf (c :: rest) = true) :
    replaceList (p :: ps) repl (c :: rest) =
      repl ++ replaceList (p :: ps) repl (rest.drop ps.length) := by
  rw [replaceList, if_pos ⟨List.cons_ne_nil p ps, h⟩]
  simp

theorem replaceList_skip_ne (pat0 : Char) (pat repl : List Char) (c : Char)
    (rest : List Char) (h : c ≠ pat0) :
    replaceList (pat0 :: pat) repl (c :: rest) =
      c :: replaceList (pat0 :: pat) repl rest := by
  apply replaceList_skip
  have hunf : (pat0 :: pat).isPrefixOf (c :: rest) =
      (pat0 == c && pat.isPrefixOf rest) := rfl
  rw [hunf, beq_eq_false_iff_ne.mpr (Ne.symm h), Bool.false_and]

/-- Intermediate substitution after undoing `&lt;`: `&` still expands to
`&amp;` and `>` to `&gt;`, while `<` is back to itself. -/
def escStageA (c : Char) : List Char :=
  if c = '&' then chars "&amp;"
  else if c = '>' then chars "&gt;"
  else [c]

/-- Intermediate substitution after also undoing `&gt;`: only `&` is still
expanded. -/
def escStageB (c : Char) : List Char :=
  if c = '&' then chars "&amp;"
  else [c]

theorem unescape_stage1 (s : List Char) :
    replaceList ['&', 'l', 't', ';'] ['<'] (joinMap escapeSpec s) =
      joinMap escStageA s := by
  induction s with
  | nil => rw [joinMap_nil, joinMap_nil, replaceList_nil]
  | cons c s ih =>
      rw [joinMap_cons, joinMap_cons]
      by_cases h1 : c = '&'
      · subst h1
        have e1 : escapeSpec '&' = ['&', 'a', 'm', 'p', ';'] := rfl
        have e2 : escStageA '&' = ['&', 'a', 'm', 'p', ';'] := rfl
        rw [e1, e2]
        simp only [List.cons_append, List.nil_append]
        have s1 : (['&', 'l', 't', ';'] : List Char).isPrefixOf
            ('&' :: 'a' :: 'm' :: 'p' :: ';' :: joinMap escapeSpec s) = false := rfl
        rw [replaceList_skip _ _ _ _ s1,
          replaceList_skip_ne _ _ _ _ _ (by decide),
          replaceList_skip_ne _ _ _ _ _ (by decide),
          replaceList_skip_ne _ _ _ _ _ (by decide),
          replaceList_skip_ne _ _ _ _ _ (by decide), ih]
      · by_cases h2 : c = '<'
        · subst h2
          have e1 : escapeSpec '<' = ['&', 'l', 't', ';'] := rfl
          have e2 : escStageA '<' = ['<'] := rfl
          rw [e1, e2]
          simp only [List.cons_append, List.nil_append]
          have m1 : (['&', 'l', 't', ';'] : List Char).isPrefixOf
              ('&' :: 'l' :: 't' :: ';' :: joinMap escapeSpec s) = true := by
            simp [List.isPrefixOf]
          rw [replaceList_match _ _ _ _ _ m1]
          simp only [List.length_cons, List.length_nil, List.drop_succ_cons,
            List.drop_zero, List.singleton_append]
          rw [ih]
        · by_cases h3 : c = '>'
          · subst h3
            have e1 : escapeSpec '>' = ['&', 'g', 't', ';'] := rfl
            have e2 : escStageA '>' = ['&', 'g', 't', ';'] := rfl
            rw [e1, e2]
            simp only [List.cons_append, List.nil_append]
            have s1 : (['&', 'l', 't', ';'] : List Char).isPrefixOf
                ('&' :: 'g' :: 't' :: ';' :: joinMap escapeSpec s) = false := rfl
            rw [replaceList_skip _ _ _ _ s1,
              replaceList_skip_ne _ _ _ _ _ (by decide),
              replaceList_skip_ne _ _ _ _ _ (by decide),
              replaceList_skip_ne _ _ _ _ _ (by decide), ih]
          · have e1 : escapeSpec c = [c] := by simp [escapeSpec, h1, h2, h3]
            have e2 : escStageA c = [c] := by simp [escStageA, h1, h3]
            rw [e1, e2]
            simp only [List.singleton_append]
            rw [replaceList_skip_ne _ _ _ _ _ h1, ih]

theorem unescape_stage2 (s : List Char) :
    replaceList ['&', 'g', 't', ';'] ['>'] (joinMap escStageA s) =
      joinMap escStageB s := by
  induction s with
  | nil => rw [joinMap_nil, joinMap_nil, replaceList_nil]
  | cons c s ih =>
      rw [joinMap_cons, joinMap_cons]
      by_cases h1 : c = '&'
      · subst h1
        have e1 : escStageA '&' = ['&', 'a', 'm', 'p', ';'] := rfl
        have e2 : escStageB '&' = ['&', 'a', 'm', 'p', ';'] := rfl
        rw [e1, e2]
        simp only [List.cons_append, List.nil_append]
        have s1 : (['&', 'g', 't', ';'] : List Char).isPrefixOf
            ('&' :: 'a' :: 'm' :: 'p' :: ';' :: joinMap escStageA s) = false := rfl
        rw [replaceList_skip _ _ _ _ s1,
          replaceList_skip_ne _ _ _ _ _ (by decide),
          replaceList_skip_ne _ _ _ _ _ (by decide),
          replaceList_skip_ne _ _ _ _ _ (by decide),
          replaceList_skip_ne _ _ _ _ _ (by decide), ih]
      · by_cases h3 : c = '>'
        · subst h3
          have e1 : escStageA '>' = ['&', 'g', 't', ';'] := rfl
          have e2 : escStageB '>' = ['>'] := rfl
          rw [e1, e2]
          simp only [List.cons_append, List.nil_append]
          have m1 : (['&', 'g', 't', ';'] : List Char).isPrefixOf
              ('&' :: 'g' :: 't' :: ';' :: joinMap escStageA s) = true := by
            simp [List.isPrefixOf]
          rw [replaceList_match _ _ _ _ _ m1]
          simp only [List.length_cons, List.length_nil, List.drop_succ_cons,
            List.drop_zero, List.singleton_append]
          rw [ih]
        · have e1 : escStageA c = [c] := by simp [escStageA, h1, h3]
          have e2 : escStageB c = [c] := by simp [escStageB, h1]
          rw [e1, e2]
          simp only [List.singleton_append]
          rw [replaceList_skip_ne _ _ _ _ _ h1, ih]

theorem unescape_stage3 (s : List Char) :
    replaceList ['&', 'a', 'm', 'p', ';'] ['&'] (joinMap escStageB s) = s := by
  induction s with
  | nil => rw [joinMap_nil, replaceList_nil]
  | cons c s ih =>
      rw [joinMap_cons]
      by_cases h1 : c = '&'
      · subst h1
        have e1 : escStageB '&' = ['&', 'a', 'm', 'p', ';'] := rfl
        rw [e1]
        simp only [List.cons_append, List.nil_append]
        have m1 : (['&', 'a', 'm', 'p', ';'] : List Char).isPrefixOf
            ('&' :: 'a' :: 'm' :: 'p' :: ';' :: joinMap escStageB s) = true := by
          simp [List.isPrefixOf]
        rw [replaceList_match _ _ _ _ _ m1]
        simp only [List.length_cons, List.length_nil, List.drop_succ_cons,
          List.drop_zero, List.singleton_append]
        rw [ih]
      · have e1 : escStageB c = [c] := by simp [escStageB, h1]
        rw [e1]
        simp only [List.singleton_append]
        rw [replaceList_skip_ne _ _ _ _ _ h1, ih]

theorem unescape_escape (s : List Char) : unescape (escape_html s) = s := by
  rw [escape_html_eq_joinMap]
  unfold unescape
  rw [unescape_stage1, unescape_stage2, unescape_stage3]

theorem escapeSpec_no_raw (c : Char) :
    '<' ∉ escapeSpec c ∧ '>' ∉ escapeSpec c := by
  by_cases h1 : c = '&'
  · subst h1; decide
  · by_cases h2 : c = '<'
    · subst h2; decide
    · by_cases h3 : c = '>'
      · subst h3; decide
      · simp only [escapeSpec, h1, h2, h3, if_false]
        constructor
        · intro hmem
          simp at hmem
          exact h2 hmem.symm
        · intro hmem
          simp at hmem
          exact h3 hmem.symm

theorem escape_html_no_raw (s : List Char) :
    '<' ∉ escape_html s ∧ '>' ∉ escape_html s := by
  rw [escape_html_eq_joinMap]
  induction s with
  | nil => simp [joinMap_nil]
  | cons c s ih =>
      rw [joinMap_cons]
      constructor
      · intro hmem
        rcases List.mem_append.mp hmem with hmem | hmem
        · exact (escapeSpec_no_raw c).1 hmem
        · exact ih.1 hmem
      · intro hmem
        rcases List.mem_append.mp hmem with hmem | hmem
        · exact (escapeSpec_no_raw c).2 hmem
        · exact ih.2 hmem

/-- C9: `escape_html` is invertible — applying the reverse substitutions
(`&lt;` to `<`, `&gt;` to `>`, then `&amp;` to `&`) to `escape_html s`
recovers `s` exactly; the escaped string contains no raw `<` or `>`; and
`escape_html` is therefore injective. -/
theorem C9_escape_invertible (s : List Char) :
    unescape (escape_html s) = s
    ∧ '<' ∉ escape_html s
    ∧ '>' ∉ escape_html s
    ∧ ∀ t : List Char, escape_html s = escape_html t → s = t := by
  refine ⟨unescape_escape s, (escape_html_no_raw s).1, (escape_html_no_raw s).2, ?_⟩
  intro t h
  rw [← unescape_escape s, ← unescape_escape t, h]

theorem C9_escape_invertible_witness : chars "a<b" = chars "a<b" :=
  (C9_escape_invertible (chars "a<b")).2.2.2 (chars "a<b") rfl

/-- C1: rendering `"a\nb\n"` against itself does NOT yield exactly 2 Equal
records.  The source loop emits a record for every fragment of
`"a\nb\n".split('\n') = ["a", "b", ""]`, including the final empty fragment
produced solely by the trailing line break, so it emits 3 Equal records, the
third a phantom empty line numbered (3, 3). -/
theorem C1_phantom_trailing_record :
    processDiffs (diff_main_self (chars "a\nb\n")) 1 1 =
      [⟨some 1, some 1, Classification.equal, chars "a"⟩,
       ⟨some 2, some 2, Classification.equal, chars "b"⟩,
       ⟨some 3, some 3, Classification.equal, []⟩] := by
  decide

/-- C2: rendering `"a\nb\n"` against `""` does NOT yield exactly 2 Deletion
records.  The source emits 3 Deletion records with left numbers 1, 2, 3, the
third a phantom empty line from the trailing line break; the right number is
undefined on all of them. -/
theorem C2_total_deletion_code_behavior :
    processDiffs (diff_main_toEmpty (chars "a\nb\n")) 1 1 =
      [⟨some 1, none, Classification.deletion, chars "a"⟩,
       ⟨some 2, none, Classification.deletion, chars "b"⟩,
       ⟨some 3, none, Classification.deletion, []⟩] := by
  decide
